import Mathlib

/-!
# Verification of the Matthes & Seitz catalog scraper

A shallow embedding of `src/matthes_seitz_catalog/scraper.py`.

HTTP transport is modelled by oracle functions `String → Option Page`
(`none` models a `requests.RequestException`, including non-2xx raised by
`raise_for_status`).  HTML pages are modelled by the element structure the
scraper actually queries: a catalog index page is a pager text plus listing
items, a detail page is the set of selected elements' texts.  Python string
and regex operations are embedded on `List Char` (Python `\d`, `\s`, `.`
are modelled over their ASCII behaviour; `.` does not match a newline and
`$` matches at the end of the string or just before a trailing newline,
as in Python without `re.MULTILINE`/`re.DOTALL`).
-/

namespace MSCatalog

/-! ## Python string primitives -/

/-- Python `\s` / `str.strip` whitespace over ASCII. -/
def isSpace (c : Char) : Bool :=
  c == ' ' || c == '\t' || c == '\n' || c == '\r' || c == '\x0b' || c == '\x0c'

/-- Python `str.strip()` on a character list. -/
def pyStrip (l : List Char) : List Char :=
  ((l.dropWhile isSpace).reverse.dropWhile isSpace).reverse

/-- Python `str.strip()` on a `String`. -/
def pyStripStr (s : String) : String :=
  (pyStrip s.toList).asString

/-- Python `str.split(",")`: split at every comma, keeping empty pieces. -/
def splitComma : List Char → List (List Char)
  | [] => [[]]
  | c :: rest =>
    if c = ',' then [] :: splitComma rest
    else
      match splitComma rest with
      | g :: gs => (c :: g) :: gs
      | [] => [[c]]

/-- `re.sub(r"^<label>\s*", "", s)`: if `s` starts with `label`, drop the
label and all whitespace after it, otherwise leave `s` unchanged. -/
def stripLabel (label : List Char) (s : List Char) : List Char :=
  if s.take label.length = label then (s.drop label.length).dropWhile isSpace
  else s

/-- Decimal digits to a natural number (`int(...)` on a digit string). -/
def digitsToNat (l : List Char) : Nat :=
  l.foldl (fun n c => n * 10 + (c.toNat - 48)) 0

/-- `l` contains no newline character. -/
def noNl (l : List Char) : Bool := l.all (fun c => c ≠ '\n')

/-- `l` is a newline-free run followed by one final newline.  This is the
shape on which Python `.*$` can still reach the end from the left edge of
`l` (`$` matches just before a trailing newline). -/
def endsNlFree (l : List Char) : Bool :=
  match l.reverse with
  | '\n' :: t => noNl t
  | _ => false

/-- `re.sub(r"\?.*$", "", s)`: delete from the leftmost `?` from which a
newline-free run reaches the end of the string (or the position just
before one final trailing newline).  A `?` followed by an interior newline
does not match, and the search continues to the right of it. -/
def stripQ : List Char → List Char
  | [] => []
  | c :: rest =>
    if c = '?' then
      if noNl rest then []
      else if endsNlFree rest then ['\n']
      else c :: stripQ rest
    else c :: stripQ rest

/-! ## Constants (scraper.py lines 32-37) -/

def BASE_URL : String := "https://www.matthes-seitz-berlin.de"

def ALL_IMPRINTS : List String :=
  ["matthes-seitz-berlin", "friedenauer-presse", "august-verlag"]

/-! ## Data model -/

/-- A dict with `"url"` and `"imprint"` keys, as produced by the Collector. -/
structure URLEntry where
  url : String
  imprint : String
deriving DecidableEq, Repr

/-- One `li.item.item_product` listing item.  `link` is the `href` of its
`h3.title a` element: `none` models a missing link element or a link
without an `href` attribute. -/
structure Item where
  link : Option String
deriving DecidableEq, Repr

/-- A catalog index page as seen by the scraper: the text of
`div#listpager p` (if present) and the listing items. -/
structure IndexPage where
  pager : Option String
  items : List Item
deriving DecidableEq, Repr

/-- One child node of the `div.number` block: its text, and whether it is
a `span.invisible` (removed by `decompose()` before text extraction). -/
structure NumberNode where
  invisible : Bool
  text : String
deriving DecidableEq, Repr

/-- A book detail page as seen by the scraper: each field is the
`get_text(strip=True)` text of the corresponding selected element
(`none` models an absent element), except `number` which keeps the
child nodes of `div.number`, and `authors` which is the list of texts of
the `div.authors a.author` elements in document order. -/
structure DetailPage where
  title : Option String
  subtitle : Option String
  authors : List String
  number : Option (List NumberNode)
  price : Option String
  info : Option String
  dateof : Option String
  serial : Option String
  keywords : Option String
  description : Option String
deriving DecidableEq, Repr

/-- The flat record built at scraper.py lines 257-270. -/
structure BookRecord where
  url : String
  imprint : String
  title : String
  subtitle : Option String
  authors : List String
  isbn : Option String
  price : Option String
  pages_binding : Option String
  year : Option String
  series : Option String
  keywords : List String
  description : Option String
deriving DecidableEq, Repr

/-! ## URL Collector -/

def catalogUrl (imprint : String) : String :=
  BASE_URL ++ "/" ++ imprint ++ "/lieferbar.html"

def pageUrl (imprint : String) (p : Nat) : String :=
  catalogUrl imprint ++ "?p=" ++ toString p

/-! ### Model of `urllib.parse.urljoin(BASE_URL, rel)`

The base is fixed: scheme `https`, netloc `www.matthes-seitz-berlin.de`,
empty path, no params/query/fragment.  The model follows CPython's
`urllib.parse` (3.10+): `urlsplit` removes ASCII tab/CR/LF anywhere in
the URL and strips leading C0-control/space characters; a href carrying
a scheme other than `https` is returned as the original, unsanitized
string; otherwise netloc/path/params/query/fragment are split off, `.`
and `..` path segments are resolved, and the result is reassembled with
the base's scheme and (when the href has no netloc) the base's host.
Not modelled: the `ValueError` urlsplit raises for mismatched IPv6
brackets in a netloc (an uncaught crash path, never a returned URL). -/

/-- WHATWG C0 control or space, stripped from the left by `urlsplit`. -/
def isC0OrSpace (c : Char) : Bool := c.toNat ≤ 32

/-- The bytes `urlsplit` removes anywhere in a URL: tab, CR, LF. -/
def isUnsafeUrlChar (c : Char) : Bool := c == '\t' || c == '\r' || c == '\n'

/-- `urlsplit`'s input sanitization. -/
def sanitizeUrl (l : List Char) : List Char :=
  (l.filter (fun c => !isUnsafeUrlChar c)).dropWhile isC0OrSpace

/-- ASCII lowercasing, as `str.lower` acts on scheme characters. -/
def lowerChar (c : Char) : Char :=
  if 'A' ≤ c ∧ c ≤ 'Z' then Char.ofNat (c.toNat + 32) else c

/-- Characters allowed in a URL scheme after the initial letter. -/
def isSchemeChar (c : Char) : Bool :=
  c.isAlpha || c.isDigit || c == '+' || c == '-' || c == '.'

/-- Scheme detection of `urlsplit`: a leading ASCII letter followed by
scheme characters up to a `:`.  Returns the (un-lowercased) scheme and
the remainder after the colon. -/
def splitScheme : List Char → Option (List Char × List Char)
  | [] => none
  | c :: rest =>
    if c.isAlpha then
      let run := rest.takeWhile isSchemeChar
      match rest.drop run.length with
      | ':' :: t => some (c :: run, t)
      | _ => none
    else none

def notHash (c : Char) : Bool := c != '#'

def notQmark (c : Char) : Bool := c != '?'

def notSlash (c : Char) : Bool := c != '/'

def notSemi (c : Char) : Bool := c != ';'

/-- `urlsplit`'s fragment/query split: the fragment after the first `#`,
the query between the first `?` and the fragment.  An absent part and an
empty part are both `[]` (CPython uses `""`, dropped on unparsing). -/
def splitPQF (l : List Char) : List Char × List Char × List Char :=
  let pre := l.takeWhile notHash
  let frag := (l.dropWhile notHash).drop 1
  (pre.takeWhile notQmark, (pre.dropWhile notQmark).drop 1, frag)

/-- `urlparse`'s `_splitparams`, guarded by `';' in path`: parameters
are split off after the first `;` of the last path segment. -/
def splitParams (p : List Char) : List Char × List Char :=
  if p.contains ';' then
    if p.contains '/' then
      let lastSeg := (p.reverse.takeWhile notSlash).reverse
      if lastSeg.contains ';' then
        (p.take (p.length - lastSeg.length) ++ lastSeg.takeWhile notSemi,
          (lastSeg.dropWhile notSemi).drop 1)
      else (p, [])
    else (p.takeWhile notSemi, (p.dropWhile notSemi).drop 1)
  else (p, [])

/-- Python `sep.join(...)` on character-list segments. -/
def joinChar (sep : Char) : List (List Char) → List Char
  | [] => []
  | [s] => s
  | s :: rest => s ++ sep :: joinChar sep rest

/-- Python `str.split(sep)` for a one-character separator. -/
def splitOnChar (sep : Char) : List Char → List (List Char)
  | [] => [[]]
  | c :: rest =>
    if c = sep then [] :: splitOnChar sep rest
    else
      match splitOnChar sep rest with
      | g :: gs => (c :: g) :: gs
      | [] => [[c]]

/-- `urljoin`'s `.`/`..` segment resolution: `..` pops the last resolved
segment (silently on empty), `.` is dropped, and a trailing `.`/`..`
leaves a trailing empty segment. -/
def resolveDotsAux : List (List Char) → List (List Char) → List (List Char)
  | acc, [] => acc
  | acc, seg :: rest =>
    if seg = ['.', '.'] then resolveDotsAux acc.dropLast rest
    else if seg = ['.'] then resolveDotsAux acc rest
    else resolveDotsAux (acc ++ [seg]) rest

def resolveDots (segs : List (List Char)) : List (List Char) :=
  let r := resolveDotsAux [] segs
  if segs.getLast? = some ['.'] ∨ segs.getLast? = some ['.', '.'] then r ++ [[]]
  else r

/-- The base's netloc (`BASE_URL` without its scheme). -/
def baseNetloc : List Char := "www.matthes-seitz-berlin.de".toList

/-- `urlunparse((https, netloc, path, params, query, fragment))`:
params are re-attached to the path with `;`, a netloc is followed by a
`/` before a non-absolute path, and empty query/fragment are dropped. -/
def unparseFull (netloc path params query frag : List Char) : List Char :=
  let p2 := path ++ (if params ≠ [] then ';' :: params else [])
  "https://".toList ++ netloc
    ++ (if p2 ≠ [] ∧ p2.take 1 ≠ ['/'] then '/' :: p2 else p2)
    ++ (if query ≠ [] then '?' :: query else [])
    ++ (if frag ≠ [] then '#' :: frag else [])

/-- `segments[1:-1] = filter(None, segments[1:-1])` after prepending the
base path's segments (`['']` for the empty base path). -/
def mergeRelative (segs : List (List Char)) : List (List Char) :=
  [[]] ++ segs.dropLast.filter (fun s => s ≠ []) ++ segs.drop (segs.length - 1)

/-- The no-netloc arm of `urljoin` against the fixed base: split off
query/fragment and params, return the bare host for a fully empty path,
otherwise resolve dot segments (against the base's empty path when the
path is relative) and reassemble. -/
def joinPath (t : List Char) : List Char :=
  let pqf := splitPQF t
  let pp := splitParams pqf.1
  if pp.1 = [] ∧ pp.2 = [] then unparseFull baseNetloc [] [] pqf.2.1 pqf.2.2
  else
    let segs :=
      if pp.1.take 1 = ['/'] then splitOnChar '/' pp.1
      else mergeRelative (splitOnChar '/' pp.1)
    let joined := joinChar '/' (resolveDots segs)
    unparseFull baseNetloc (if joined = [] then ['/'] else joined) pp.2
      pqf.2.1 pqf.2.2

/-- `urljoin` once the scheme is known to be the base's `https`: a href
with its own non-empty netloc keeps it (no dot resolution); otherwise
the path is joined against the base. -/
def joinHttps (t : List Char) : List Char :=
  if t.take 2 = ['/', '/'] then
    let after := t.drop 2
    let netloc := after.takeWhile (fun c => notSlash c && notQmark c && notHash c)
    if netloc ≠ [] then
      let pqf := splitPQF (after.drop netloc.length)
      unparseFull netloc pqf.1 [] pqf.2.1 pqf.2.2
    else joinPath (after.drop netloc.length)
  else joinPath t

/-- `urllib.parse.urljoin(BASE_URL, rel)`: an empty href returns the
base; a href whose (sanitized) scheme differs from `https` is returned
as the original string, untouched; otherwise it is joined against the
base from its sanitized form. -/
def urljoinBase (rel : String) : String :=
  if rel = "" then BASE_URL
  else
    let clean := sanitizeUrl rel.toList
    match splitScheme clean with
    | some sr =>
      if sr.1.map lowerChar = "https".toList then (joinHttps sr.2).asString
      else rel
    | none => (joinHttps clean).asString

/-- Lines 141-145: absolutize an href (Python
`href.startswith("http")` guard) and strip the query string. -/
def normalizeHref (href : String) : String :=
  let cs := href.toList
  if cs.take 4 = "http".toList then (stripQ cs).asString
  else (stripQ (urljoinBase href).toList).asString

/-- `_extract_urls_from_page` (lines 135-147): keep items whose link is
present with a non-empty href (Python truthiness of `link.get("href")`). -/
def extract_urls_from_page : List Item → String → List URLEntry
  | [], _ => []
  | it :: rest, imprint =>
    match it.link with
    | some h =>
      if h ≠ "" then
        { url := normalizeHref h, imprint := imprint } :: extract_urls_from_page rest imprint
      else extract_urls_from_page rest imprint
    | none => extract_urls_from_page rest imprint

/-- `re.search(r"(\d[\d.]*)", s)`: leftmost maximal run of digits and dots
starting with a digit. -/
def totalMatch : List Char → Option (List Char)
  | [] => none
  | c :: rest =>
    if c.isDigit then some (c :: rest.takeWhile (fun d => d.isDigit || d = '.'))
    else totalMatch rest

/-- Lines 92-96: parse the pager total; `0` if the pager is absent or its
text contains no digit.  `int(m.group(1).replace(".", ""))`. -/
def totalOf (pg : IndexPage) : Nat :=
  match pg.pager with
  | none => 0
  | some txt =>
    match totalMatch txt.toList with
    | none => 0
    | some run => digitsToNat (run.filter (fun c => c ≠ '.'))

/-- The Python truthiness test `limit and len(all_books) >= limit`
(line 103 / 110 / 130), over the accumulated length. -/
def limitHit (lim : Option Nat) (len : Nat) : Bool :=
  match lim with
  | none => false
  | some n => decide (n ≠ 0) && decide (n ≤ len)

/-- State threaded through the collection loops: accumulated entries, the
log of URLs requested so far, and whether an early `return` was taken
(in which case `books` is already truncated to the limit). -/
structure CollectState where
  books : List URLEntry
  log : List String
  halted : Bool
deriving DecidableEq, Repr

/-- The pagination loop of `collect_urls` (lines 109-128) over the
remaining page indices.  Each iteration first tests the limit (line 110),
then requests the page (logged whether or not the fetch succeeds); a
failed fetch is skipped and the loop continues. -/
def pagLoop (fetch : String → Option IndexPage) (imprint : String)
    (lim : Option Nat) (acc : List URLEntry) (lg : List String) :
    List Nat → CollectState
  | [] => ⟨acc, lg, false⟩
  | p :: ps =>
    if limitHit lim acc.length then ⟨acc.take (lim.getD 0), lg, true⟩
    else
      match fetch (pageUrl imprint p) with
      | none => pagLoop fetch imprint lim acc (lg ++ [pageUrl imprint p]) ps
      | some pg =>
        pagLoop fetch imprint lim (acc ++ extract_urls_from_page pg.items imprint)
          (lg ++ [pageUrl imprint p]) ps

/-- The outer imprint loop of `collect_urls` (lines 77-128).  A failed
first-page fetch skips the whole imprint (lines 81-86); otherwise the
first page's URLs are collected, the limit is tested (line 103), and if
the pager total exceeds 24 the pagination loop runs over
`range(1, num_pages)` with `num_pages = (total + 23) // 24` (lines
106-128). -/
def collectLoop (fetch : String → Option IndexPage) (lim : Option Nat)
    (acc : List URLEntry) (lg : List String) : List String → CollectState
  | [] => ⟨acc, lg, false⟩
  | imprint :: imps =>
    match fetch (catalogUrl imprint) with
    | none => collectLoop fetch lim acc (lg ++ [catalogUrl imprint]) imps
    | some pg =>
      let total := totalOf pg
      let acc1 := acc ++ extract_urls_from_page pg.items imprint
      let lg1 := lg ++ [catalogUrl imprint]
      if limitHit lim acc1.length then ⟨acc1.take (lim.getD 0), lg1, true⟩
      else if 24 < total then
        let r := pagLoop fetch imprint lim acc1 lg1 (List.range' 1 ((total + 23) / 24 - 1))
        if r.halted then r else collectLoop fetch lim r.books r.log imps
      else collectLoop fetch lim acc1 lg1 imps

/-- `collect_urls` (lines 59-132), instrumented with the request log.
`imprints = none` defaults to `ALL_IMPRINTS` (line 72); the final
truncation (lines 130-132) applies under Python truthiness of `limit`. -/
def collect_urls (fetch : String → Option IndexPage)
    (imprints : Option (List String)) (lim : Option Nat) :
    List URLEntry × List String :=
  let s := collectLoop fetch lim [] [] (imprints.getD ALL_IMPRINTS)
  if s.halted then (s.books, s.log)
  else
    match lim with
    | some n => (if n ≠ 0 then s.books.take n else s.books, s.log)
    | none => (s.books, s.log)

/-! ## Detail Extractor -/

/-- Characters the ISBN regex `[\d-]` accepts after the literal `978`. -/
def isbnTail (c : Char) : Bool := c.isDigit || c = '-'

/-- One attempt of `978[\d-]{10,}` anchored at the head of the list:
the literal `978` followed by a greedy run of at least 10 `[\d-]`. -/
def isbnHere : List Char → Option (List Char)
  | c1 :: c2 :: c3 :: rest =>
    if c1 = '9' ∧ c2 = '7' ∧ c3 = '8' then
      let run := rest.takeWhile isbnTail
      if 10 ≤ run.length then some (c1 :: c2 :: c3 :: run) else none
    else none
  | _ => none

/-- `re.search(r"(978[\d-]{10,})", s)`: leftmost match. -/
def isbnSearch : List Char → Option (List Char)
  | [] => none
  | c :: rest =>
    match isbnHere (c :: rest) with
    | some m => some m
    | none => isbnSearch rest

/-- `div.number` text after `decompose()` of every `span.invisible` and
`get_text(strip=True)` (each remaining node's text stripped, then
concatenated). -/
def blockTextChars (nodes : List NumberNode) : List Char :=
  ((nodes.filter (fun nd => !nd.invisible)).map (fun nd => pyStrip nd.text.toList)).flatten

/-- Lines 206-215: the ISBN extracted from the `div.number` child nodes. -/
def extractIsbn (nodes : List NumberNode) : Option String :=
  (isbnSearch (blockTextChars nodes)).map (fun m => (pyStrip m).asString)

/-- Lines 243-249: keyword extraction from the `div.keywords` text:
strip the `Schlagworte:` label, split on commas, strip each piece, keep
the non-empty ones. -/
def kwExtract (text : String) : List String :=
  (((splitComma (stripLabel "Schlagworte:".toList text.toList)).map pyStrip).filter
    (fun l => l ≠ [])).map List.asString

/-- Lines 229-235: the publication date text with the `Veröffentlicht:`
label stripped, then `strip()`ed. -/
def yearExtract (text : String) : String :=
  (pyStrip (stripLabel "Veröffentlicht:".toList text.toList)).asString

/-- `_parse_detail_page` (lines 187-270): `none` exactly when the page has
no `h1.title` element, otherwise the twelve-field record. -/
def parse_detail_page (pg : DetailPage) (url imprint : String) : Option BookRecord :=
  match pg.title with
  | none => none
  | some title =>
    some
      { url := url
        imprint := imprint
        title := title
        subtitle := pg.subtitle
        authors := pg.authors
        isbn := pg.number.bind extractIsbn
        price := pg.price
        pages_binding := pg.info
        year := pg.dateof.map yearExtract
        series := pg.serial
        keywords := (pg.keywords.map kwExtract).getD []
        description := pg.description }

/-- `scrape_books` (lines 155-184): fetch each entry's detail page; a
fetch failure or a parse returning `None` contributes nothing. -/
def scrape_books (fetch : String → Option DetailPage) : List URLEntry → List BookRecord
  | [] => []
  | e :: rest =>
    match fetch e.url with
    | none => scrape_books fetch rest
    | some pg =>
      match parse_detail_page pg e.url e.imprint with
      | none => scrape_books fetch rest
      | some book => book :: scrape_books fetch rest

/-- The per-entry outcome of the Detail Extractor: the record the entry
contributes to the output, if any. -/
def detailOutcome (fetch : String → Option DetailPage) (e : URLEntry) : Option BookRecord :=
  match fetch e.url with
  | none => none
  | some pg => parse_detail_page pg e.url e.imprint

/-! ## General lemmas -/

theorem toList_asString (l : List Char) : (List.asString l).toList = l := rfl

theorem asString_ne_empty {l : List Char} (h : l ≠ []) : List.asString l ≠ "" :=
  fun he => h (congrArg String.toList he)

theorem parse_detail_page_isSome (pg : DetailPage) (url imprint : String) :
    (parse_detail_page pg url imprint).isSome = pg.title.isSome := by
  cases h : pg.title <;> simp [parse_detail_page, h]

/-! ## C1: the Detail Extractor is a per-entry filter -/

/-- `scrape_books` agrees with the per-entry outcome map. -/
theorem scrape_books_eq_filterMap (fetch : String → Option DetailPage)
    (es : List URLEntry) :
    scrape_books fetch es = es.filterMap (detailOutcome fetch) := by
  induction es with
  | nil => rfl
  | cons e rest ih =>
    rw [List.filterMap_cons]
    cases h : fetch e.url with
    | none => simp [scrape_books, detailOutcome, h, ih]
    | some pg =>
      cases hp : parse_detail_page pg e.url e.imprint with
      | none => simp [scrape_books, detailOutcome, h, hp, ih]
      | some b => simp [scrape_books, detailOutcome, h, hp, ih]

/-- The entry's fetch fails. -/
def fetchFailed (fetch : String → Option DetailPage) (e : URLEntry) : Bool :=
  (fetch e.url).isNone

/-- The entry's fetch succeeds but the page has no title element. -/
def fetchedNoTitle (fetch : String → Option DetailPage) (e : URLEntry) : Bool :=
  match fetch e.url with
  | some pg => pg.title.isNone
  | none => false

theorem scrape_books_length_aux (fetch : String → Option DetailPage)
    (es : List URLEntry) :
    (scrape_books fetch es).length
      + (es.countP (fetchFailed fetch) + es.countP (fetchedNoTitle fetch))
      = es.length := by
  induction es with
  | nil => rfl
  | cons e rest ih =>
    cases h : fetch e.url with
    | none =>
      have c1 : (if fetchFailed fetch e = true then 1 else 0) = 1 := by
        simp [fetchFailed, h]
      have c2 : (if fetchedNoTitle fetch e = true then 1 else 0) = 0 := by
        simp [fetchedNoTitle, h]
      have hs : scrape_books fetch (e :: rest) = scrape_books fetch rest := by
        simp [scrape_books, h]
      rw [hs, List.countP_cons, List.countP_cons, c1, c2, List.length_cons]
      omega
    | some pg =>
      have c1 : (if fetchFailed fetch e = true then 1 else 0) = 0 := by
        simp [fetchFailed, h]
      cases ht : pg.title with
      | none =>
        have c2 : (if fetchedNoTitle fetch e = true then 1 else 0) = 1 := by
          simp [fetchedNoTitle, h, ht]
        have hp : parse_detail_page pg e.url e.imprint = none := by
          simp [parse_detail_page, ht]
        have hs : scrape_books fetch (e :: rest) = scrape_books fetch rest := by
          simp [scrape_books, h, hp]
        rw [hs, List.countP_cons, List.countP_cons, c1, c2, List.length_cons]
        omega
      | some t =>
        have c2 : (if fetchedNoTitle fetch e = true then 1 else 0) = 0 := by
          simp [fetchedNoTitle, h, ht]
        have hp : (parse_detail_page pg e.url e.imprint).isSome = true := by
          rw [parse_detail_page_isSome, ht]; rfl
        obtain ⟨b, hb⟩ := Option.isSome_iff_exists.mp hp
        have hs : scrape_books fetch (e :: rest) = b :: scrape_books fetch rest := by
          simp [scrape_books, h, hb]
        rw [hs, List.countP_cons, List.countP_cons, c1, c2, List.length_cons,
          List.length_cons]
        omega

/-- C1: `scrape_books` returns exactly one record per entry whose fetch
succeeds and whose page has a title element, in input order (it is the
`filterMap` of the per-entry outcome, which is `none` exactly on fetch
failures and title-less pages), and the output length is the input length
minus the number of fetch failures and title-less pages. -/
theorem scrape_books_per_entry_c1 (fetch : String → Option DetailPage)
    (es : List URLEntry) :
    scrape_books fetch es = es.filterMap (detailOutcome fetch) ∧
    (scrape_books fetch es).length
      = es.length
        - (es.countP (fetchFailed fetch) + es.countP (fetchedNoTitle fetch)) := by
  refine ⟨scrape_books_eq_filterMap fetch es, ?_⟩
  have := scrape_books_length_aux fetch es
  omega

/-! ## C9: a limit of 0 is ignored (Python truthiness) -/

theorem limitHit_zero (len : Nat) : limitHit (some 0) len = false := by
  simp [limitHit]

theorem limitHit_none (len : Nat) : limitHit none len = false := rfl

theorem pagLoop_zero (fetch : String → Option IndexPage) (imprint : String)
    (ps : List Nat) : ∀ acc lg,
    pagLoop fetch imprint (some 0) acc lg ps = pagLoop fetch imprint none acc lg ps := by
  induction ps with
  | nil => intro acc lg; rfl
  | cons p ps ih =>
    intro acc lg
    simp only [pagLoop, limitHit_zero, limitHit, Bool.false_eq_true, if_false]
    cases fetch (pageUrl imprint p) <;> simp [ih]

theorem collectLoop_zero (fetch : String → Option IndexPage) (imps : List String) :
    ∀ acc lg,
    collectLoop fetch (some 0) acc lg imps = collectLoop fetch none acc lg imps := by
  induction imps with
  | nil => intro acc lg; rfl
  | cons imprint imps ih =>
    intro acc lg
    simp only [collectLoop]
    cases fetch (catalogUrl imprint) with
    | none => exact ih _ _
    | some pg =>
      simp only [limitHit_zero, limitHit_none, Bool.false_eq_true, if_false,
        pagLoop_zero]
      split
      · split <;> simp [ih]
      · exact ih _ _

/-- C9: calling `collect_urls` with `limit = 0` behaves exactly as with no
limit at all: every limit test uses Python truthiness, so the whole
discoverable list is returned. -/
theorem collect_urls_limit_zero_c9 (fetch : String → Option IndexPage)
    (imprints : Option (List String)) :
    collect_urls fetch imprints (some 0) = collect_urls fetch imprints none := by
  unfold collect_urls
  rw [collectLoop_zero]
  by_cases h : (collectLoop fetch none [] [] (imprints.getD ALL_IMPRINTS)).halted = true
  · simp [h]
  · simp [h]

/-! ## C6: keyword extraction -/

/-- C6: keyword extraction never yields an empty entry, and on the text
`"Schlagworte: Philosophie, Ethik,  "` it yields exactly
`["Philosophie", "Ethik"]` (label stripped, entries trimmed, the empty
trailing piece dropped). -/
theorem keywords_c6 :
    (∀ (t k : String), k ∈ kwExtract t → k ≠ "") ∧
    kwExtract "Schlagworte: Philosophie, Ethik,  " = ["Philosophie", "Ethik"] := by
  constructor
  · intro t k hk
    simp only [kwExtract, List.mem_map] at hk
    obtain ⟨l, hl, rfl⟩ := hk
    have hne : l ≠ [] := by
      have := List.mem_filter.mp hl
      simpa using this.2
    exact asString_ne_empty hne
  · rfl

theorem keywords_c6_witness : ("Philosophie" : String) ≠ "" :=
  keywords_c6.1 "Schlagworte: Philosophie, Ethik,  " "Philosophie" (by decide)

/-! ## C10: shape of a produced record -/

/-- C10: every record produced by `parse_detail_page` carries all twelve
fields of `BookRecord` (the record type of the dict literal at lines
257-270); `url` and `imprint` are copied verbatim from the input entry,
`authors` is the page's author list, a missing keyword block yields `[]`,
and every other missing optional element yields `none`. -/
theorem parse_detail_record_c10 (pg : DetailPage) (url imprint : String)
    (book : BookRecord) (h : parse_detail_page pg url imprint = some book) :
    book.url = url ∧ book.imprint = imprint ∧ book.authors = pg.authors ∧
    (pg.keywords = none → book.keywords = []) ∧
    (pg.subtitle = none → book.subtitle = none) ∧
    (pg.number = none → book.isbn = none) ∧
    (pg.price = none → book.price = none) ∧
    (pg.info = none → book.pages_binding = none) ∧
    (pg.dateof = none → book.year = none) ∧
    (pg.serial = none → book.series = none) ∧
    (pg.description = none → book.description = none) := by
  cases ht : pg.title with
  | none => simp [parse_detail_page, ht] at h
  | some t =>
    simp only [parse_detail_page, ht, Option.some.injEq] at h
    subst h
    refine ⟨rfl, rfl, rfl, ?_, ?_, ?_, ?_, ?_, ?_, ?_, ?_⟩ <;>
      (intro h0; simp [h0])

/-- A detail page whose only present element is the title. -/
def titleOnlyPage : DetailPage :=
  ⟨some "T", none, [], none, none, none, none, none, none, none⟩

/-- The record `parse_detail_page` produces from `titleOnlyPage`. -/
def titleOnlyBook : BookRecord :=
  ⟨"u", "i", "T", none, [], none, none, none, none, none, [], none⟩

theorem parse_detail_record_c10_witness :
    titleOnlyBook.url = "u" ∧ titleOnlyBook.imprint = "i" ∧
    titleOnlyBook.authors = titleOnlyPage.authors ∧
    (titleOnlyPage.keywords = none → titleOnlyBook.keywords = []) ∧
    (titleOnlyPage.subtitle = none → titleOnlyBook.subtitle = none) ∧
    (titleOnlyPage.number = none → titleOnlyBook.isbn = none) ∧
    (titleOnlyPage.price = none → titleOnlyBook.price = none) ∧
    (titleOnlyPage.info = none → titleOnlyBook.pages_binding = none) ∧
    (titleOnlyPage.dateof = none → titleOnlyBook.year = none) ∧
    (titleOnlyPage.serial = none → titleOnlyBook.series = none) ∧
    (titleOnlyPage.description = none → titleOnlyBook.description = none) :=
  parse_detail_record_c10 titleOnlyPage "u" "i" titleOnlyBook rfl

/-! ## Unlimited collection runs only append -/

/-- Without a limit, the pagination loop never halts, requests exactly the
given page indices in order, and only appends to the accumulator. -/
theorem pagLoop_none_run (fetch : String → Option IndexPage) (imprint : String)
    (ps : List Nat) : ∀ acc lg, ∃ ext,
    pagLoop fetch imprint none acc lg ps
      = ⟨acc ++ ext, lg ++ ps.map (pageUrl imprint), false⟩ := by
  induction ps with
  | nil => intro acc lg; exact ⟨[], by simp [pagLoop]⟩
  | cons p ps ih =>
    intro acc lg
    simp only [pagLoop, limitHit_none, Bool.false_eq_true, if_false]
    cases fetch (pageUrl imprint p) with
    | none =>
      obtain ⟨ext, hext⟩ := ih acc (lg ++ [pageUrl imprint p])
      exact ⟨ext, by simp [hext]⟩
    | some pg =>
      obtain ⟨ext, hext⟩ :=
        ih (acc ++ extract_urls_from_page pg.items imprint) (lg ++ [pageUrl imprint p])
      exact ⟨extract_urls_from_page pg.items imprint ++ ext, by simp [hext]⟩

/-- Without a limit, the imprint loop never halts and only appends. -/
theorem collectLoop_none_run (fetch : String → Option IndexPage)
    (imps : List String) : ∀ acc lg, ∃ ext lext,
    collectLoop fetch none acc lg imps = ⟨acc ++ ext, lg ++ lext, false⟩ := by
  induction imps with
  | nil => intro acc lg; exact ⟨[], [], by simp [collectLoop]⟩
  | cons imprint imps ih =>
    intro acc lg
    simp only [collectLoop]
    cases hf : fetch (catalogUrl imprint) with
    | none =>
      obtain ⟨ext, lext, hext⟩ := ih acc (lg ++ [catalogUrl imprint])
      exact ⟨ext, [catalogUrl imprint] ++ lext, by simp [hext]⟩
    | some pg =>
      simp only [limitHit_none, Bool.false_eq_true, if_false]
      split
      · obtain ⟨ext1, hext1⟩ :=
          pagLoop_none_run fetch imprint
            (List.range' 1 ((totalOf pg + 23) / 24 - 1))
            (acc ++ extract_urls_from_page pg.items imprint)
            (lg ++ [catalogUrl imprint])
        rw [hext1]
        simp only [Bool.false_eq_true, if_false]
        obtain ⟨ext2, lext2, hext2⟩ :=
          ih (acc ++ extract_urls_from_page pg.items imprint ++ ext1)
            (lg ++ [catalogUrl imprint]
              ++ (List.range' 1 ((totalOf pg + 23) / 24 - 1)).map (pageUrl imprint))
        rw [hext2]
        exact ⟨extract_urls_from_page pg.items imprint ++ ext1 ++ ext2,
          [catalogUrl imprint]
            ++ (List.range' 1 ((totalOf pg + 23) / 24 - 1)).map (pageUrl imprint)
            ++ lext2, by simp⟩
      · obtain ⟨ext, lext, hext⟩ :=
          ih (acc ++ extract_urls_from_page pg.items imprint) (lg ++ [catalogUrl imprint])
        rw [hext]
        exact ⟨extract_urls_from_page pg.items imprint ++ ext,
          [catalogUrl imprint] ++ lext, by simp⟩

/-! ## C3: number of pagination fetches -/

/-- C3: with no limit, a single-imprint collection whose first page fetch
succeeds requests exactly the first catalog page followed, when the pager
total exceeds the fixed page size 24, by the pages with query indices
`1` through `ceil(total/24) - 1` in order — that is, `ceil(total/24) - 1`
additional fetches — and no additional page otherwise. -/
theorem collect_urls_pagination_c3 (fetch : String → Option IndexPage)
    (imprint : String) (pg : IndexPage)
    (hf : fetch (catalogUrl imprint) = some pg) :
    (collect_urls fetch (some [imprint]) none).2
      = catalogUrl imprint ::
        (if 24 < totalOf pg then
          (List.range' 1 ((totalOf pg + 23) / 24 - 1)).map (pageUrl imprint)
        else []) ∧
    (collect_urls fetch (some [imprint]) none).2.length
      = 1 + (if 24 < totalOf pg then (totalOf pg + 23) / 24 - 1 else 0) := by
  have hmain :
      (collect_urls fetch (some [imprint]) none).2
        = catalogUrl imprint ::
          (if 24 < totalOf pg then
            (List.range' 1 ((totalOf pg + 23) / 24 - 1)).map (pageUrl imprint)
          else []) := by
    unfold collect_urls
    simp only [Option.getD_some, collectLoop, hf, limitHit_none,
      Bool.false_eq_true, if_false]
    by_cases h24 : 24 < totalOf pg
    · simp only [h24, if_true]
      obtain ⟨ext, hext⟩ :=
        pagLoop_none_run fetch imprint
          (List.range' 1 ((totalOf pg + 23) / 24 - 1))
          ([] ++ extract_urls_from_page pg.items imprint)
          ([] ++ [catalogUrl imprint])
      rw [hext]
      simp
    · simp [h24, collectLoop]
  refine ⟨hmain, ?_⟩
  rw [hmain]
  by_cases h24 : 24 < totalOf pg <;> simp [h24, Nat.add_comm]

/-- First page of an imprint whose pager reports 50 titles. -/
def pagerFiftyPage : IndexPage := ⟨some "Anzahl: 50", []⟩

/-- Index fetch oracle serving only `pagerFiftyPage`. -/
def fetchFifty : String → Option IndexPage := fun u =>
  if u = catalogUrl "matthes-seitz-berlin" then some pagerFiftyPage else none

theorem collect_urls_pagination_c3_witness :
    (collect_urls fetchFifty (some ["matthes-seitz-berlin"]) none).2
      = catalogUrl "matthes-seitz-berlin" ::
        (if 24 < totalOf pagerFiftyPage then
          (List.range' 1 ((totalOf pagerFiftyPage + 23) / 24 - 1)).map
            (pageUrl "matthes-seitz-berlin")
        else []) ∧
    (collect_urls fetchFifty (some ["matthes-seitz-berlin"]) none).2.length
      = 1 + (if 24 < totalOf pagerFiftyPage then
          (totalOf pagerFiftyPage + 23) / 24 - 1 else 0) :=
  collect_urls_pagination_c3 fetchFifty "matthes-seitz-berlin" pagerFiftyPage rfl

/-! ## C7: missing or unparsable pager -/

theorem totalMatch_none_of_no_digit (l : List Char)
    (h : ∀ c ∈ l, c.isDigit = false) : totalMatch l = none := by
  induction l with
  | nil => rfl
  | cons c rest ih =>
    have hc : c.isDigit = false := h c (by simp)
    simp only [totalMatch, hc, Bool.false_eq_true, if_false]
    exact ih (fun x hx => h x (by simp [hx]))

/-- C7: if the first catalog page has no pager element, or its pager text
contains no digit, the total is taken to be 0, no pagination page is
requested, and the first page's URLs are still collected. -/
theorem collect_urls_no_pager_c7 (fetch : String → Option IndexPage)
    (imprint : String) (pg : IndexPage)
    (hf : fetch (catalogUrl imprint) = some pg)
    (hp : pg.pager = none ∨
      ∃ txt, pg.pager = some txt ∧ ∀ c ∈ txt.toList, c.isDigit = false) :
    totalOf pg = 0 ∧
    collect_urls fetch (some [imprint]) none
      = (extract_urls_from_page pg.items imprint, [catalogUrl imprint]) := by
  have h0 : totalOf pg = 0 := by
    rcases hp with h | ⟨txt, htxt, hdig⟩
    · simp [totalOf, h]
    · have hm : totalMatch txt.data = none :=
        totalMatch_none_of_no_digit txt.toList hdig
      simp [totalOf, htxt, hm]
  refine ⟨h0, ?_⟩
  unfold collect_urls
  simp [collectLoop, hf, limitHit_none, h0]

/-- First page with an unparsable pager text and one listing item. -/
def pagerlessPage : IndexPage := ⟨some "Anzahl: keine", [⟨some "/a.html"⟩]⟩

/-- Index fetch oracle serving only `pagerlessPage`. -/
def fetchPagerless : String → Option IndexPage := fun u =>
  if u = catalogUrl "friedenauer-presse" then some pagerlessPage else none

theorem collect_urls_no_pager_c7_witness :
    totalOf pagerlessPage = 0 ∧
    collect_urls fetchPagerless (some ["friedenauer-presse"]) none
      = (extract_urls_from_page pagerlessPage.items "friedenauer-presse",
        [catalogUrl "friedenauer-presse"]) :=
  collect_urls_no_pager_c7 fetchPagerless "friedenauer-presse" pagerlessPage rfl
    (Or.inr ⟨"Anzahl: keine", rfl, by decide⟩)

/-! ## C8: a fetch failure skips exactly its unit of work -/

/-- C8: a failed fetch is never fatal and never retried, and its blast
radius is exactly the enclosing unit of work: a failed first catalog page
skips the whole imprint and continues with the next imprint; a failed
pagination page (reached with the limit not yet hit) skips only that page
and continues with the next page; a failed detail fetch omits only that
entry.  In each case the failing URL is still logged and the accumulated
books and log are passed through unchanged. -/
theorem fetch_error_blast_c8 :
    (∀ (fetch : String → Option IndexPage) (lim : Option Nat)
        (acc : List URLEntry) (lg : List String) (imprint : String)
        (imps : List String),
      fetch (catalogUrl imprint) = none →
      collectLoop fetch lim acc lg (imprint :: imps)
        = collectLoop fetch lim acc (lg ++ [catalogUrl imprint]) imps) ∧
    (∀ (fetch : String → Option IndexPage) (imprint : String)
        (lim : Option Nat) (acc : List URLEntry) (lg : List String)
        (p : Nat) (ps : List Nat),
      fetch (pageUrl imprint p) = none →
      limitHit lim acc.length = false →
      pagLoop fetch imprint lim acc lg (p :: ps)
        = pagLoop fetch imprint lim acc (lg ++ [pageUrl imprint p]) ps) ∧
    (∀ (fetchD : String → Option DetailPage) (e : URLEntry)
        (es : List URLEntry),
      fetchD e.url = none →
      scrape_books fetchD (e :: es) = scrape_books fetchD es) := by
  refine ⟨?_, ?_, ?_⟩
  · intro fetch lim acc lg imprint imps h
    simp [collectLoop, h]
  · intro fetch imprint lim acc lg p ps h hlim
    simp [pagLoop, h, hlim]
  · intro fetchD e es h
    simp [scrape_books, h]

/-- An index fetch oracle for which every request fails. -/
def failAllIndex : String → Option IndexPage := fun _ => none

/-- A detail fetch oracle for which every request fails. -/
def failAllDetail : String → Option DetailPage := fun _ => none

theorem fetch_error_blast_c8_witness :
    collectLoop failAllIndex none [] [] ["august-verlag", "friedenauer-presse"]
      = collectLoop failAllIndex none [] ([] ++ [catalogUrl "august-verlag"])
          ["friedenauer-presse"] ∧
    pagLoop failAllIndex "august-verlag" none [] [] [1, 2]
      = pagLoop failAllIndex "august-verlag" none []
          ([] ++ [pageUrl "august-verlag" 1]) [2] ∧
    scrape_books failAllDetail [⟨"u", "i"⟩] = scrape_books failAllDetail [] :=
  ⟨fetch_error_blast_c8.1 failAllIndex none [] [] "august-verlag"
      ["friedenauer-presse"] rfl,
    fetch_error_blast_c8.2.1 failAllIndex "august-verlag" none [] [] 1 [2] rfl rfl,
    fetch_error_blast_c8.2.2 failAllDetail ⟨"u", "i"⟩ [] rfl⟩

/-! ## C2: a positive limit truncates to min(limit, total) -/

/-- Comparison of a positive-limit pagination run with the unlimited one:
they agree until the limit check fires; if it fires, the limited run
halts holding exactly `n` entries, the unlimited run holds at least `n`,
and the limited request log is an initial segment of the unlimited one. -/
theorem pagLoop_cmp (fetch : String → Option IndexPage) (imprint : String)
    (n : Nat) (ps : List Nat) : ∀ acc lg,
    pagLoop fetch imprint (some n) acc lg ps
      = pagLoop fetch imprint none acc lg ps ∨
    ((pagLoop fetch imprint (some n) acc lg ps).halted = true ∧
     (pagLoop fetch imprint (some n) acc lg ps).books.length = n ∧
     n ≤ (pagLoop fetch imprint none acc lg ps).books.length ∧
     ∃ lext, (pagLoop fetch imprint none acc lg ps).log
        = (pagLoop fetch imprint (some n) acc lg ps).log ++ lext) := by
  induction ps with
  | nil => intro acc lg; exact Or.inl rfl
  | cons p ps ih =>
    intro acc lg
    cases hhit : limitHit (some n) acc.length with
    | true =>
      right
      have hacc : n ≤ acc.length := by
        simp [limitHit] at hhit
        exact hhit.2
      have hT : pagLoop fetch imprint (some n) acc lg (p :: ps)
          = ⟨acc.take n, lg, true⟩ := by
        simp [pagLoop, hhit]
      obtain ⟨ext, hU⟩ := pagLoop_none_run fetch imprint (p :: ps) acc lg
      rw [hT, hU]
      refine ⟨rfl, ?_, ?_, ⟨(p :: ps).map (pageUrl imprint), rfl⟩⟩
      · simp only [List.length_take]
        omega
      · simp only [List.length_append]
        omega
    | false =>
      simp only [pagLoop, hhit, limitHit_none, Bool.false_eq_true, if_false]
      cases fetch (pageUrl imprint p) with
      | none => exact ih _ _
      | some pg => exact ih _ _

/-- Comparison of a positive-limit imprint-loop run with the unlimited
one, in the same sense as `pagLoop_cmp`. -/
theorem collectLoop_cmp (fetch : String → Option IndexPage) (n : Nat)
    (imps : List String) : ∀ acc lg,
    collectLoop fetch (some n) acc lg imps
      = collectLoop fetch none acc lg imps ∨
    ((collectLoop fetch (some n) acc lg imps).halted = true ∧
     (collectLoop fetch (some n) acc lg imps).books.length = n ∧
     n ≤ (collectLoop fetch none acc lg imps).books.length ∧
     ∃ lext, (collectLoop fetch none acc lg imps).log
        = (collectLoop fetch (some n) acc lg imps).log ++ lext) := by
  induction imps with
  | nil => intro acc lg; exact Or.inl rfl
  | cons imprint imps ih =>
    intro acc lg
    cases hf : fetch (catalogUrl imprint) with
    | none =>
      simp only [collectLoop, hf]
      exact ih _ _
    | some pg =>
      cases hhit : limitHit (some n)
          (acc ++ extract_urls_from_page pg.items imprint).length with
      | true =>
        right
        have hacc : n ≤ (acc ++ extract_urls_from_page pg.items imprint).length := by
          simp only [limitHit, Bool.and_eq_true, decide_eq_true_eq] at hhit
          exact hhit.2
        have hT : collectLoop fetch (some n) acc lg (imprint :: imps)
            = ⟨(acc ++ extract_urls_from_page pg.items imprint).take n,
                lg ++ [catalogUrl imprint], true⟩ := by
          simp only [collectLoop, hf, hhit, Bool.false_eq_true, if_false, eq_self_iff_true, if_true, Option.getD_some]
        by_cases h24 : 24 < totalOf pg
        · obtain ⟨ext1, hpag⟩ :=
            pagLoop_none_run fetch imprint
              (List.range' 1 ((totalOf pg + 23) / 24 - 1))
              (acc ++ extract_urls_from_page pg.items imprint)
              (lg ++ [catalogUrl imprint])
          obtain ⟨ext2, lext2, hrest⟩ :=
            collectLoop_none_run fetch imps
              (acc ++ extract_urls_from_page pg.items imprint ++ ext1)
              (lg ++ [catalogUrl imprint]
                ++ (List.range' 1 ((totalOf pg + 23) / 24 - 1)).map (pageUrl imprint))
          have hN : collectLoop fetch none acc lg (imprint :: imps)
              = ⟨acc ++ extract_urls_from_page pg.items imprint ++ ext1 ++ ext2,
                  lg ++ [catalogUrl imprint]
                    ++ (List.range' 1 ((totalOf pg + 23) / 24 - 1)).map (pageUrl imprint)
                    ++ lext2, false⟩ := by
            simp only [collectLoop, hf, limitHit_none, h24, Bool.false_eq_true, if_false, eq_self_iff_true, if_true]
            rw [hpag]
            simp only [Bool.false_eq_true, if_false, eq_self_iff_true, if_true]
            rw [hrest]
          rw [hT, hN]
          refine ⟨rfl, ?_, ?_, ?_⟩
          · simp only [List.length_take]
            simp only [List.length_append] at hacc ⊢
            omega
          · simp only [List.length_append] at hacc ⊢
            omega
          · exact ⟨(List.range' 1 ((totalOf pg + 23) / 24 - 1)).map (pageUrl imprint)
                ++ lext2, by simp⟩
        · obtain ⟨ext2, lext2, hrest⟩ :=
            collectLoop_none_run fetch imps
              (acc ++ extract_urls_from_page pg.items imprint)
              (lg ++ [catalogUrl imprint])
          have hN : collectLoop fetch none acc lg (imprint :: imps)
              = ⟨acc ++ extract_urls_from_page pg.items imprint ++ ext2,
                  lg ++ [catalogUrl imprint] ++ lext2, false⟩ := by
            simp only [collectLoop, hf, limitHit_none, h24, Bool.false_eq_true, if_false, eq_self_iff_true, if_true]
            rw [hrest]
          rw [hT, hN]
          refine ⟨rfl, ?_, ?_, ⟨lext2, rfl⟩⟩
          · simp only [List.length_take]
            simp only [List.length_append] at hacc ⊢
            omega
          · simp only [List.length_append] at hacc ⊢
            omega
      | false =>
        by_cases h24 : 24 < totalOf pg
        · rcases pagLoop_cmp fetch imprint n
              (List.range' 1 ((totalOf pg + 23) / 24 - 1))
              (acc ++ extract_urls_from_page pg.items imprint)
              (lg ++ [catalogUrl imprint]) with heq | ⟨hh, hlen, hle, lext, hlog⟩
          · obtain ⟨ext1, hpag⟩ :=
              pagLoop_none_run fetch imprint
                (List.range' 1 ((totalOf pg + 23) / 24 - 1))
                (acc ++ extract_urls_from_page pg.items imprint)
                (lg ++ [catalogUrl imprint])
            have hS : collectLoop fetch (some n) acc lg (imprint :: imps)
                = collectLoop fetch (some n)
                    (acc ++ extract_urls_from_page pg.items imprint ++ ext1)
                    (lg ++ [catalogUrl imprint]
                      ++ (List.range' 1 ((totalOf pg + 23) / 24 - 1)).map
                          (pageUrl imprint)) imps := by
              simp only [collectLoop, hf, hhit, Bool.false_eq_true, if_false, eq_self_iff_true, if_true, h24]
              rw [heq, hpag]
              simp only [Bool.false_eq_true, if_false, eq_self_iff_true, if_true]
            have hN : collectLoop fetch none acc lg (imprint :: imps)
                = collectLoop fetch none
                    (acc ++ extract_urls_from_page pg.items imprint ++ ext1)
                    (lg ++ [catalogUrl imprint]
                      ++ (List.range' 1 ((totalOf pg + 23) / 24 - 1)).map
                          (pageUrl imprint)) imps := by
              simp only [collectLoop, hf, limitHit_none, Bool.false_eq_true, if_false, eq_self_iff_true, if_true, h24]
              rw [hpag]
              simp only [Bool.false_eq_true, if_false, eq_self_iff_true, if_true]
            rw [hS, hN]
            exact ih _ _
          · have hS : collectLoop fetch (some n) acc lg (imprint :: imps)
                = pagLoop fetch imprint (some n)
                    (acc ++ extract_urls_from_page pg.items imprint)
                    (lg ++ [catalogUrl imprint])
                    (List.range' 1 ((totalOf pg + 23) / 24 - 1)) := by
              simp only [collectLoop, hf, hhit, Bool.false_eq_true, if_false, eq_self_iff_true, if_true, h24, hh]
            obtain ⟨ext1, hpag⟩ :=
              pagLoop_none_run fetch imprint
                (List.range' 1 ((totalOf pg + 23) / 24 - 1))
                (acc ++ extract_urls_from_page pg.items imprint)
                (lg ++ [catalogUrl imprint])
            obtain ⟨ext2, lext2, hrest⟩ :=
              collectLoop_none_run fetch imps
                (acc ++ extract_urls_from_page pg.items imprint ++ ext1)
                (lg ++ [catalogUrl imprint]
                  ++ (List.range' 1 ((totalOf pg + 23) / 24 - 1)).map (pageUrl imprint))
            have hN : collectLoop fetch none acc lg (imprint :: imps)
                = ⟨acc ++ extract_urls_from_page pg.items imprint ++ ext1 ++ ext2,
                    lg ++ [catalogUrl imprint]
                      ++ (List.range' 1 ((totalOf pg + 23) / 24 - 1)).map (pageUrl imprint)
                      ++ lext2, false⟩ := by
              simp only [collectLoop, hf, limitHit_none, Bool.false_eq_true, if_false, eq_self_iff_true, if_true, h24]
              rw [hpag]
              simp only [Bool.false_eq_true, if_false, eq_self_iff_true, if_true]
              rw [hrest]
            right
            rw [hS, hN]
            rw [hpag] at hle hlog
            refine ⟨hh, hlen, ?_, ⟨lext ++ lext2, ?_⟩⟩
            · simp only [List.length_append] at hle ⊢
              omega
            · simp only at hlog ⊢
              rw [hlog]
              simp only [List.append_assoc]
        · have hS : collectLoop fetch (some n) acc lg (imprint :: imps)
              = collectLoop fetch (some n)
                  (acc ++ extract_urls_from_page pg.items imprint)
                  (lg ++ [catalogUrl imprint]) imps := by
            simp only [collectLoop, hf, hhit, Bool.false_eq_true, if_false, eq_self_iff_true, if_true, h24]
          have hN : collectLoop fetch none acc lg (imprint :: imps)
              = collectLoop fetch none
                  (acc ++ extract_urls_from_page pg.items imprint)
                  (lg ++ [catalogUrl imprint]) imps := by
            simp only [collectLoop, hf, limitHit_none, Bool.false_eq_true, if_false, eq_self_iff_true, if_true, h24]
          rw [hS, hN]
          exact ih _ _

/-- C2 (amended): for every positive limit `n`, `collect_urls` returns
exactly `min n total_discoverable` entries, where `total_discoverable` is
the length of the unlimited run's output, and the requests it issues are
an initial segment of the unlimited run's requests (the run stops at the
first limit check once the limit is reached).  A limit of 0 is ignored
(see the C9 theorem), which is the counterexample to the claim as
stated. -/
theorem collect_urls_limit_c2 (fetch : String → Option IndexPage)
    (imprints : Option (List String)) (n : Nat) (hn : 0 < n) :
    (collect_urls fetch imprints (some n)).1.length
      = min n (collect_urls fetch imprints none).1.length ∧
    ∃ ext, (collect_urls fetch imprints none).2
      = (collect_urls fetch imprints (some n)).2 ++ ext := by
  have hne : n ≠ 0 := Nat.pos_iff_ne_zero.mp hn
  obtain ⟨ext0, lext0, hU⟩ :=
    collectLoop_none_run fetch (imprints.getD ALL_IMPRINTS) [] []
  unfold collect_urls
  rcases collectLoop_cmp fetch n (imprints.getD ALL_IMPRINTS) [] []
    with heq | ⟨hh, hlen, hle, lext, hlog⟩
  · rw [heq, hU]
    refine ⟨?_, ⟨[], ?_⟩⟩ <;> simp [hne, List.length_take]
  · rw [hU] at hle hlog
    simp only at hle hlog
    simp only [hh, hU, eq_self_iff_true, if_true, Bool.false_eq_true, if_false]
    refine ⟨?_, ⟨lext, ?_⟩⟩
    · simp only [List.nil_append] at hle ⊢
      rw [hlen]
      omega
    · simpa using hlog

/-- A first catalog page with no pager and a single listing item. -/
def onePagePage : IndexPage := ⟨none, [⟨some "/a.html"⟩]⟩

/-- Index fetch oracle serving only `onePagePage`. -/
def fetchOneItem : String → Option IndexPage := fun u =>
  if u = catalogUrl "august-verlag" then some onePagePage else none

/-- C2 counterexample: with `limit = 0` supplied and one discoverable URL,
the output length is 1, not `min 0 1 = 0` — the limit is ignored under
Python truthiness, so the claim fails for the limit value 0. -/
theorem collect_urls_limit_c2_cex :
    (collect_urls fetchOneItem (some ["august-verlag"]) (some 0)).1.length
      ≠ min 0 (collect_urls fetchOneItem (some ["august-verlag"]) none).1.length := by
  decide

theorem collect_urls_limit_c2_witness :
    0 < 1 ∧
    ((collect_urls fetchOneItem (some ["august-verlag"]) (some 1)).1.length
        = min 1 (collect_urls fetchOneItem (some ["august-verlag"]) none).1.length ∧
      ∃ ext, (collect_urls fetchOneItem (some ["august-verlag"]) none).2
        = (collect_urls fetchOneItem (some ["august-verlag"]) (some 1)).2 ++ ext) :=
  ⟨Nat.one_pos, collect_urls_limit_c2 fetchOneItem (some ["august-verlag"]) 1 Nat.one_pos⟩

/-! ## C4: ISBN extraction ignores the hidden companion span -/

theorem dropWhile_eq_self_of_none {p : Char → Bool} (l : List Char)
    (h : ∀ c ∈ l, p c = false) : l.dropWhile p = l := by
  cases l with
  | nil => rfl
  | cons c rest => simp [List.dropWhile, h c (by simp)]

theorem pyStrip_eq_self (l : List Char) (h : ∀ c ∈ l, isSpace c = false) :
    pyStrip l = l := by
  unfold pyStrip
  rw [dropWhile_eq_self_of_none l h,
    dropWhile_eq_self_of_none l.reverse (fun c hc => h c (by simpa using hc)),
    List.reverse_reverse]

theorem not_space_of_isbnTail (c : Char) (h : isbnTail c = true) :
    isSpace c = false := by
  by_contra hc
  have hs : isSpace c = true := by
    revert hc; cases isSpace c <;> simp
  have hd : c = ' ' ∨ c = '\t' ∨ c = '\n' ∨ c = '\r' ∨ c = '\x0b' ∨ c = '\x0c' := by
    simpa [isSpace, or_assoc] using hs
  rcases hd with rfl | rfl | rfl | rfl | rfl | rfl <;> revert h <;> decide

theorem takeWhile_append_all {p : Char → Bool} (l1 l2 : List Char)
    (h : ∀ c ∈ l1, p c = true) :
    (l1 ++ l2).takeWhile p = l1 ++ l2.takeWhile p := by
  induction l1 with
  | nil => rfl
  | cons c rest ih =>
    have hc := h c (by simp)
    simp [List.takeWhile_cons, hc, ih (fun x hx => h x (by simp [hx]))]

theorem isbnHere_cons_ne (c : Char) (t : List Char) (h : c ≠ '9') :
    isbnHere (c :: t) = none := by
  cases t with
  | nil => rfl
  | cons c2 t2 =>
    cases t2 with
    | nil => rfl
    | cons c3 t3 => simp [isbnHere, h]

theorem isbnSearch_cons (c : Char) (t : List Char) :
    isbnSearch (c :: t)
      = match isbnHere (c :: t) with
        | some m => some m
        | none => isbnSearch t := rfl

theorem isbnSearch_append_skip (p rest : List Char)
    (hp : ∀ c ∈ p, isbnTail c = false) :
    isbnSearch (p ++ rest) = isbnSearch rest := by
  induction p with
  | nil => rfl
  | cons c p ih =>
    have h9 : c ≠ '9' := by
      intro hc
      have := hp c (by simp)
      rw [hc] at this
      exact absurd this (by decide)
    rw [List.cons_append, isbnSearch_cons, isbnHere_cons_ne c _ h9]
    exact ih (fun x hx => hp x (by simp [hx]))

theorem isbnSearch_finds (ctail s : List Char)
    (hc : ∀ c ∈ ctail, isbnTail c = true)
    (hlen : 10 ≤ ctail.length)
    (hs : ∀ c, s.head? = some c → isbnTail c = false) :
    isbnSearch (('9' :: '7' :: '8' :: ctail) ++ s)
      = some ('9' :: '7' :: '8' :: ctail) := by
  have hrun : (ctail ++ s).takeWhile isbnTail = ctail := by
    rw [takeWhile_append_all ctail s hc]
    cases s with
    | nil => simp
    | cons c s2 =>
      have := hs c rfl
      simp [List.takeWhile_cons, this]
  have hhere : isbnHere ('9' :: '7' :: '8' :: (ctail ++ s))
      = some ('9' :: '7' :: '8' :: ctail) := by
    simp only [isbnHere, hrun]
    have h10 : 10 ≤ ctail.length := hlen
    simp [h10]
  rw [List.cons_append, List.cons_append, List.cons_append, isbnSearch_cons]
  rw [hhere]

/-- C4: for a `div.number` block whose visible (non-hidden) text consists
of a non-`[\d-]` preamble, a valid 13-digit `978…` ISBN (internal hyphens
allowed), and a suffix not starting with a digit or hyphen, the extracted
ISBN is exactly the visible code with its 13 digits — whatever text any
hidden `span.invisible` companion holds, since those spans are removed
before the block's text is read. -/
theorem extract_isbn_c4 (nodes : List NumberNode) (p ctail s : List Char)
    (hb : blockTextChars nodes = p ++ ('9' :: '7' :: '8' :: ctail) ++ s)
    (hp : ∀ c ∈ p, isbnTail c = false)
    (hc : ∀ c ∈ ctail, isbnTail c = true)
    (hlen : 10 ≤ ctail.length)
    (hdig : ('9' :: '7' :: '8' :: ctail).countP (fun c => c.isDigit) = 13)
    (hs : ∀ c, s.head? = some c → isbnTail c = false) :
    extractIsbn nodes = some (List.asString ('9' :: '7' :: '8' :: ctail)) ∧
    ('9' :: '7' :: '8' :: ctail).countP (fun c => c.isDigit) = 13 := by
  refine ⟨?_, hdig⟩
  unfold extractIsbn
  rw [hb, List.append_assoc, isbnSearch_append_skip p _ hp,
    isbnSearch_finds ctail s hc hlen hs]
  have hns : ∀ c ∈ ('9' :: '7' :: '8' :: ctail), isSpace c = false := by
    intro c hcm
    simp only [List.mem_cons] at hcm
    rcases hcm with rfl | rfl | rfl | hcm
    · decide
    · decide
    · decide
    · exact not_space_of_isbnTail c (hc c hcm)
  simp [pyStrip_eq_self _ hns]

/-- The number block of the claim's scenario: a hidden compact-ISBN span
next to the visible `ISBN 978-3-88221-123-4` text. -/
def hiddenIsbnNodes : List NumberNode :=
  [⟨true, "9783882211234"⟩, ⟨false, "ISBN 978-3-88221-123-4"⟩]

theorem extract_isbn_c4_witness :
    extractIsbn hiddenIsbnNodes
      = some (List.asString ('9' :: '7' :: '8' :: "-3-88221-123-4".toList)) ∧
    ('9' :: '7' :: '8' :: "-3-88221-123-4".toList).countP (fun c => c.isDigit) = 13 :=
  extract_isbn_c4 hiddenIsbnNodes "ISBN ".toList "-3-88221-123-4".toList []
    (by decide) (by decide) (by decide) (by decide) (by decide)
    (fun c h => nomatch h)

/-! ## C5: URL normalization -/

theorem stripQ_cons_ne (c : Char) (rest : List Char) (h : c ≠ '?') :
    stripQ (c :: rest) = c :: stripQ rest := by
  simp [stripQ, h]

theorem stripQ_append_no_q (a b : List Char) (ha : ∀ c ∈ a, c ≠ '?') :
    stripQ (a ++ b) = a ++ stripQ b := by
  induction a with
  | nil => rfl
  | cons c a2 ih =>
    rw [List.cons_append, stripQ_cons_ne c _ (ha c (by simp)),
      ih (fun x hx => ha x (by simp [hx])), List.cons_append]

theorem stripQ_no_q (l : List Char) (h : ∀ c ∈ l, c ≠ '\n') :
    ∀ c ∈ stripQ l, c ≠ '?' := by
  induction l with
  | nil => simp [stripQ]
  | cons c rest ih =>
    by_cases hq : c = '?'
    · subst hq
      have hnn : noNl rest = true := by
        simp only [noNl, List.all_eq_true, decide_eq_true_eq]
        exact fun x hx => h x (by simp [hx])
      simp [stripQ, hnn]
    · rw [stripQ_cons_ne c rest hq]
      intro x hx
      rcases List.mem_cons.mp hx with rfl | hx2
      · exact hq
      · exact ih (fun y hy => h y (by simp [hy])) x hx2

theorem base_url_no_nl : ∀ c ∈ BASE_URL.toList, c ≠ '\n' := by decide

theorem https_scheme_no_nl : ∀ c ∈ ("https:" : String).toList, c ≠ '\n' := by
  decide

theorem base_url_no_q : ∀ c ∈ BASE_URL.toList, c ≠ '?' := by decide

/-- The Python guard `link and link.get("href")` of line 140. -/
def resolvableItem (it : Item) : Bool :=
  match it.link with
  | some h => decide (h ≠ "")
  | none => false

theorem extract_urls_length (items : List Item) (imprint : String) :
    (extract_urls_from_page items imprint).length = items.countP resolvableItem := by
  induction items with
  | nil => rfl
  | cons it rest ih =>
    cases hl : it.link with
    | none =>
      have hr : resolvableItem it = false := by simp [resolvableItem, hl]
      simp [extract_urls_from_page, hl, List.countP_cons, hr, ih]
    | some h =>
      by_cases hne : h = ""
      · subst hne
        have hr : resolvableItem it = false := by simp [resolvableItem, hl]
        simp [extract_urls_from_page, hl, List.countP_cons, hr, ih]
      · have hr : resolvableItem it = true := by simp [resolvableItem, hl, hne]
        simp [extract_urls_from_page, hl, hne, List.countP_cons, hr, ih]

/-! ### Lemmas about the urljoin model -/

theorem mem_sanitizeUrl (l : List Char) (c : Char) (h : c ∈ sanitizeUrl l) :
    c ∈ l := by
  have h2 : c ∈ l.filter (fun c => !isUnsafeUrlChar c) :=
    (List.dropWhile_sublist isC0OrSpace).subset h
  exact (List.mem_filter.mp h2).1

theorem sanitizeUrl_no_nl (l : List Char) : ∀ c ∈ sanitizeUrl l, c ≠ '\n' := by
  intro c hc hne
  subst hne
  have h2 : '\n' ∈ l.filter (fun c => !isUnsafeUrlChar c) :=
    (List.dropWhile_sublist isC0OrSpace).subset hc
  have := (List.mem_filter.mp h2).2
  simp [isUnsafeUrlChar] at this

theorem contains_eq_false_of_not_mem (l : List Char) (c : Char)
    (h : ∀ x ∈ l, x ≠ c) : l.contains c = false := by
  induction l with
  | nil => rfl
  | cons a rest ih =>
    simp only [List.contains_cons, Bool.or_eq_false_iff]
    constructor
    · simp only [beq_eq_false_iff_ne, ne_eq]
      exact fun he => (h a (by simp)) he.symm
    · exact ih (fun x hx => h x (by simp [hx]))

theorem noNl_of_no_nl (l : List Char) (h : ∀ c ∈ l, c ≠ '\n') :
    noNl l = true := by
  simp only [noNl, List.all_eq_true, decide_eq_true_eq]
  exact h

theorem take1_shape (l : List Char) (c : Char) (h : l.take 1 = [c]) :
    ∃ t, l = c :: t := by
  cases l with
  | nil => simp [List.take] at h
  | cons a t =>
    refine ⟨t, ?_⟩
    simp only [List.take, List.cons.injEq] at h
    rw [h.1]

theorem take4_http_shape (l : List Char) (h : l.take 4 = "http".toList) :
    ∃ t, l = 'h' :: 't' :: 't' :: 'p' :: t := by
  refine ⟨l.drop 4, ?_⟩
  conv_lhs => rw [← List.take_append_drop 4 l, h]
  rfl

theorem take4_append_http (x : List Char) :
    ("http".toList ++ x).take 4 = "http".toList := rfl

theorem base_append_starts_http (x : List Char) :
    (BASE_URL.toList ++ x).take 4 = "http".toList := rfl

theorem https_base_netloc :
    "https://".toList ++ baseNetloc = BASE_URL.toList := by decide

theorem sanitizeUrl_http (l : List Char) (h : l.take 4 = "http".toList) :
    (sanitizeUrl l).take 1 = ['h'] := by
  obtain ⟨t, rfl⟩ := take4_http_shape l h
  simp only [sanitizeUrl, List.filter_cons,
    show (!isUnsafeUrlChar 'h') = true from rfl, if_true, List.dropWhile_cons,
    show isC0OrSpace 'h' = false from rfl, Bool.false_eq_true, if_false]
  rfl

theorem dropWhile_all_nil (p : Char → Bool) (l : List Char)
    (h : ∀ c ∈ l, p c = true) : l.dropWhile p = [] := by
  induction l with
  | nil => rfl
  | cons c rest ih =>
    simp only [List.dropWhile_cons, h c (by simp), if_true]
    exact ih (fun x hx => h x (by simp [hx]))

theorem takeWhile_all_self (p : Char → Bool) (l : List Char)
    (h : ∀ c ∈ l, p c = true) : l.takeWhile p = l := by
  have := takeWhile_append_all (p := p) l [] h
  simpa using this

theorem splitOnChar_ne_nil (sep : Char) (l : List Char) :
    splitOnChar sep l ≠ [] := by
  cases l with
  | nil => simp [splitOnChar]
  | cons c rest =>
    by_cases hc : c = sep
    · simp [splitOnChar, hc]
    · simp only [splitOnChar, hc, if_false]
      cases splitOnChar sep rest <;> simp

theorem joinChar_cons_cons (sep c : Char) (g : List Char) (gs : List (List Char)) :
    joinChar sep ((c :: g) :: gs) = c :: joinChar sep (g :: gs) := by
  cases gs <;> rfl

theorem joinChar_splitOnChar (sep : Char) (l : List Char) :
    joinChar sep (splitOnChar sep l) = l := by
  induction l with
  | nil => rfl
  | cons c rest ih =>
    by_cases hc : c = sep
    · subst hc
      simp only [splitOnChar, if_pos rfl]
      rcases hsp : splitOnChar c rest with _ | ⟨g, gs⟩
      · exact absurd hsp (splitOnChar_ne_nil c rest)
      · rw [hsp] at ih
        show joinChar c ([] :: g :: gs) = c :: rest
        rw [show joinChar c ([] :: g :: gs) = [] ++ c :: joinChar c (g :: gs) from rfl]
        rw [ih]
        rfl
    · simp only [splitOnChar, hc, if_false]
      rcases hsp : splitOnChar sep rest with _ | ⟨g, gs⟩
      · exact absurd hsp (splitOnChar_ne_nil sep rest)
      · rw [hsp] at ih
        rw [joinChar_cons_cons, ih]

theorem resolveDotsAux_no_dots (segs : List (List Char))
    (h : ∀ seg ∈ segs, seg ≠ ['.'] ∧ seg ≠ ['.', '.']) :
    ∀ acc, resolveDotsAux acc segs = acc ++ segs := by
  induction segs with
  | nil => intro acc; simp [resolveDotsAux]
  | cons seg rest ih =>
    intro acc
    have hseg := h seg (by simp)
    simp only [resolveDotsAux, hseg.2, hseg.1, if_false]
    rw [ih (fun x hx => h x (by simp [hx])) (acc ++ [seg])]
    simp

theorem resolveDots_no_dots (segs : List (List Char))
    (h : ∀ seg ∈ segs, seg ≠ ['.'] ∧ seg ≠ ['.', '.']) :
    resolveDots segs = segs := by
  unfold resolveDots
  rw [resolveDotsAux_no_dots segs h []]
  have hlast : ¬(segs.getLast? = some ['.'] ∨ segs.getLast? = some ['.', '.']) := by
    rintro (hl | hl)
    · have hm : ['.'] ∈ segs := by
        obtain ⟨hne, heq⟩ := List.mem_getLast?_eq_getLast (l := segs)
          (show (['.'] : List Char) ∈ segs.getLast? by simp [hl, Option.mem_def])
        rw [heq]
        exact List.getLast_mem hne
      exact (h _ hm).1 rfl
    · have hm : ['.', '.'] ∈ segs := by
        obtain ⟨hne, heq⟩ := List.mem_getLast?_eq_getLast (l := segs)
          (show (['.', '.'] : List Char) ∈ segs.getLast? by simp [hl, Option.mem_def])
        rw [heq]
        exact List.getLast_mem hne
      exact (h _ hm).2 rfl
  rw [if_neg hlast]
  simp

/-- An href beginning with the literal `http` bypasses urljoin entirely
(line 142's `startswith` guard): only the query-stripping regex applies,
the result keeps its `http` start, and the query is removed whenever the
href has no newline. -/
theorem normalizeHref_http_case (h : String)
    (h4 : h.toList.take 4 = "http".toList) :
    normalizeHref h = (stripQ h.toList).asString ∧
    (normalizeHref h).toList.take 4 = "http".toList ∧
    ((∀ c ∈ h.toList, c ≠ '\n') → ∀ c ∈ (normalizeHref h).toList, c ≠ '?') := by
  have he : normalizeHref h = (stripQ h.toList).asString := by
    show (if h.toList.take 4 = "http".toList then (stripQ h.toList).asString
        else (stripQ (urljoinBase h).toList).asString)
      = (stripQ h.toList).asString
    rw [if_pos h4]
  refine ⟨he, ?_, ?_⟩
  · rw [he, toList_asString]
    obtain ⟨t, ht⟩ := take4_http_shape h.toList h4
    rw [ht, show ('h' :: 't' :: 't' :: 'p' :: t) = "http".toList ++ t from rfl,
      stripQ_append_no_q _ _ (by decide)]
    exact take4_append_http _
  · intro hn c hc
    rw [he, toList_asString] at hc
    exact stripQ_no_q _ hn c hc

/-- An href whose own scheme is not `https` is returned unchanged by
urljoin; only the query-stripping regex applies. -/
theorem normalizeHref_scheme_case (h : String) (s rest : List Char)
    (h4 : h.toList.take 4 ≠ "http".toList)
    (hsch : splitScheme (sanitizeUrl h.toList) = some (s, rest))
    (hlow : s.map lowerChar ≠ "https".toList) :
    normalizeHref h = (stripQ h.toList).asString := by
  have hne : h ≠ "" := by
    intro h0
    rw [h0, show sanitizeUrl ("" : String).toList = [] from rfl] at hsch
    exact Option.noConfusion hsch
  have hjoin : urljoinBase h = h := by
    show (if h = "" then BASE_URL
        else
          match splitScheme (sanitizeUrl h.toList) with
          | some sr =>
            if sr.1.map lowerChar = "https".toList then (joinHttps sr.2).asString
            else h
          | none => (joinHttps (sanitizeUrl h.toList)).asString)
      = h
    rw [if_neg hne, hsch]
    show (if s.map lowerChar = "https".toList then (joinHttps rest).asString else h)
      = h
    rw [if_neg hlow]
  show (if h.toList.take 4 = "http".toList then (stripQ h.toList).asString
      else (stripQ (urljoinBase h).toList).asString)
    = (stripQ h.toList).asString
  rw [if_neg h4, hjoin]

/-- A scheme-less href whose sanitized form starts with a single `/`
(and contains no `#`, no `;` and no `.`/`..` path segments) is resolved
against the fixed base URL and its query string is fully removed: the
sanitization has deleted every newline, so the stripping regex always
matches. -/
theorem normalizeHref_rootpath_case (h : String)
    (h1 : (sanitizeUrl h.toList).take 1 = ['/'])
    (h2 : (sanitizeUrl h.toList).take 2 ≠ ['/', '/'])
    (hhash : ∀ c ∈ h.toList, c ≠ '#')
    (hsemi : ∀ c ∈ h.toList, c ≠ ';')
    (hdots : ∀ seg ∈ splitOnChar '/' ((sanitizeUrl h.toList).takeWhile notQmark),
        seg ≠ ['.'] ∧ seg ≠ ['.', '.']) :
    normalizeHref h
      = (BASE_URL.toList ++ (sanitizeUrl h.toList).takeWhile notQmark).asString ∧
    (normalizeHref h).toList.take 4 = "http".toList ∧
    ∀ c ∈ (normalizeHref h).toList, c ≠ '?' := by
  obtain ⟨t, ht⟩ := take1_shape _ _ h1
  have hne : h ≠ "" := by
    intro h0
    rw [h0, show sanitizeUrl ("" : String).toList = [] from rfl] at ht
    exact List.noConfusion ht
  have h4 : ¬(h.toList.take 4 = "http".toList) := by
    intro hx
    have hh := sanitizeUrl_http _ hx
    rw [ht, show (('/' :: t).take 1) = ['/'] from rfl] at hh
    exact absurd hh (by decide)
  have hclean_no_hash : ∀ c ∈ sanitizeUrl h.toList, notHash c = true := by
    intro c hc
    simp only [notHash, bne_iff_ne, ne_eq]
    exact hhash c (mem_sanitizeUrl _ _ hc)
  have hfrag : ((sanitizeUrl h.toList).dropWhile notHash).drop 1 = [] := by
    rw [dropWhile_all_nil _ _ hclean_no_hash]
    rfl
  have hpre : (sanitizeUrl h.toList).takeWhile notHash = sanitizeUrl h.toList :=
    takeWhile_all_self _ _ hclean_no_hash
  have hpqf : splitPQF (sanitizeUrl h.toList)
      = ((sanitizeUrl h.toList).takeWhile notQmark,
          ((sanitizeUrl h.toList).dropWhile notQmark).drop 1, []) := by
    simp only [splitPQF]
    rw [hpre, hfrag]
  have hpath0 : (sanitizeUrl h.toList).takeWhile notQmark
      = '/' :: t.takeWhile notQmark := by
    rw [ht]
    rfl
  have hp0ne : (sanitizeUrl h.toList).takeWhile notQmark ≠ [] := by
    rw [hpath0]
    simp
  have hp0slash : ((sanitizeUrl h.toList).takeWhile notQmark).take 1 = ['/'] := by
    rw [hpath0]
    rfl
  have hp0semi : ((sanitizeUrl h.toList).takeWhile notQmark).contains ';' = false := by
    apply contains_eq_false_of_not_mem
    intro x hx
    exact hsemi x (mem_sanitizeUrl _ _ ((List.takeWhile_sublist _).subset hx))
  have hparams : splitParams ((sanitizeUrl h.toList).takeWhile notQmark)
      = ((sanitizeUrl h.toList).takeWhile notQmark, []) := by
    simp only [splitParams, hp0semi, Bool.false_eq_true, if_false]
  have hq_no_nl : ∀ c ∈ ((sanitizeUrl h.toList).dropWhile notQmark).drop 1, c ≠ '\n' := by
    intro c hc
    exact sanitizeUrl_no_nl _ c
      ((List.dropWhile_sublist notQmark).subset (List.mem_of_mem_drop hc))
  have hjp : joinPath (sanitizeUrl h.toList)
      = unparseFull baseNetloc ((sanitizeUrl h.toList).takeWhile notQmark) []
          (((sanitizeUrl h.toList).dropWhile notQmark).drop 1) [] := by
    simp only [joinPath, hpqf, hparams]
    rw [if_neg (fun hcon => hp0ne hcon.1), if_pos hp0slash,
      resolveDots_no_dots _ hdots, joinChar_splitOnChar, if_neg hp0ne]
  have hnq : ∀ c ∈ BASE_URL.toList ++ (sanitizeUrl h.toList).takeWhile notQmark,
      c ≠ '?' := by
    intro c hc
    rcases List.mem_append.mp hc with hc | hc
    · exact base_url_no_q c hc
    · have := List.mem_takeWhile_imp hc
      simpa [notQmark] using this
  have hunp : unparseFull baseNetloc ((sanitizeUrl h.toList).takeWhile notQmark) []
        (((sanitizeUrl h.toList).dropWhile notQmark).drop 1) []
      = (BASE_URL.toList ++ (sanitizeUrl h.toList).takeWhile notQmark)
          ++ (if ((sanitizeUrl h.toList).dropWhile notQmark).drop 1 ≠ [] then
                '?' :: ((sanitizeUrl h.toList).dropWhile notQmark).drop 1 else []) := by
    simp only [unparseFull]
    rw [if_neg (show ¬(([] : List Char) ≠ []) by simp)]
    rw [List.append_nil]
    rw [if_neg (fun hcon => hcon.2 hp0slash)]
    rw [if_neg (show ¬(([] : List Char) ≠ []) by simp)]
    rw [List.append_nil, https_base_netloc]
  have hstrip : stripQ ((BASE_URL.toList ++ (sanitizeUrl h.toList).takeWhile notQmark)
        ++ (if ((sanitizeUrl h.toList).dropWhile notQmark).drop 1 ≠ [] then
              '?' :: ((sanitizeUrl h.toList).dropWhile notQmark).drop 1 else []))
      = BASE_URL.toList ++ (sanitizeUrl h.toList).takeWhile notQmark := by
    rw [stripQ_append_no_q _ _ hnq]
    by_cases hq : ((sanitizeUrl h.toList).dropWhile notQmark).drop 1 = []
    · rw [if_neg (fun hcon => hcon hq), show stripQ ([] : List Char) = [] from rfl,
        List.append_nil]
    · rw [if_pos hq]
      have hnl : noNl (((sanitizeUrl h.toList).dropWhile notQmark).drop 1) = true :=
        noNl_of_no_nl _ hq_no_nl
      simp only [stripQ, if_pos rfl, hnl, if_true, List.append_nil]
  have hmain : normalizeHref h
      = (BASE_URL.toList ++ (sanitizeUrl h.toList).takeWhile notQmark).asString := by
    show (if h.toList.take 4 = "http".toList then (stripQ h.toList).asString
        else (stripQ (urljoinBase h).toList).asString) = _
    rw [if_neg h4]
    have hsch : splitScheme (sanitizeUrl h.toList) = none := by
      rw [ht]
      rfl
    have hub : urljoinBase h = (joinHttps (sanitizeUrl h.toList)).asString := by
      simp only [urljoinBase, hsch]
      rw [if_neg hne]
    have hjh : joinHttps (sanitizeUrl h.toList) = joinPath (sanitizeUrl h.toList) := by
      simp only [joinHttps]
      rw [if_neg h2]
    rw [hub, toList_asString, hjh, hjp, hunp, hstrip]
  refine ⟨hmain, ?_, ?_⟩
  · rw [hmain, toList_asString]
    exact base_append_starts_http _
  · intro c hc
    rw [hmain, toList_asString] at hc
    exact hnq c hc

/-- C5 (amended): every listing item with a present, non-empty href
yields exactly one URLEntry and items without one are silently omitted.
An href beginning with `http` is taken as already absolute: it keeps its
`http` start and its query string is removed whenever no newline follows
the `?` (the counterexample shows the newline case survives).  A
scheme-less href with a single leading `/` (and no `#`, `;` or dot
segments) is resolved against the fixed base URL into an absolute
`http`-prefixed URL with its query string removed — urljoin strips
tab/CR/newline first, so the regex always matches there.  An href
carrying a scheme other than `https` (e.g. `mailto:`) is returned
unchanged by urljoin and only query-stripped. -/
theorem extract_urls_absolute_c5 (items : List Item) (imprint : String) :
    ((extract_urls_from_page items imprint).length = items.countP resolvableItem) ∧
    (∀ h : String, h.toList.take 4 = "http".toList →
      normalizeHref h = (stripQ h.toList).asString ∧
      (normalizeHref h).toList.take 4 = "http".toList ∧
      ((∀ c ∈ h.toList, c ≠ '\n') → ∀ c ∈ (normalizeHref h).toList, c ≠ '?')) ∧
    (∀ h : String, (sanitizeUrl h.toList).take 1 = ['/'] →
      (sanitizeUrl h.toList).take 2 ≠ ['/', '/'] →
      (∀ c ∈ h.toList, c ≠ '#') →
      (∀ c ∈ h.toList, c ≠ ';') →
      (∀ seg ∈ splitOnChar '/' ((sanitizeUrl h.toList).takeWhile notQmark),
        seg ≠ ['.'] ∧ seg ≠ ['.', '.']) →
      normalizeHref h
        = (BASE_URL.toList ++ (sanitizeUrl h.toList).takeWhile notQmark).asString ∧
      (normalizeHref h).toList.take 4 = "http".toList ∧
      ∀ c ∈ (normalizeHref h).toList, c ≠ '?') ∧
    (∀ (h : String) (s rest : List Char), h.toList.take 4 ≠ "http".toList →
      splitScheme (sanitizeUrl h.toList) = some (s, rest) →
      s.map lowerChar ≠ "https".toList →
      normalizeHref h = (stripQ h.toList).asString) := by
  refine ⟨extract_urls_length items imprint, ?_, ?_, ?_⟩
  · exact fun h h4 => normalizeHref_http_case h h4
  · exact fun h h1 h2 hhash hsemi hdots =>
      normalizeHref_rootpath_case h h1 h2 hhash hsemi hdots
  · exact fun h s rest h4 hsch hlow =>
      normalizeHref_scheme_case h s rest h4 hsch hlow

/-- C5 counterexample, reproducing in the running program: an href that
already begins with `http` bypasses `urljoin` (and hence its newline
sanitization), so a newline after the `?` defeats the stripping regex
and the produced URL keeps its query string. -/
theorem extract_urls_absolute_c5_cex :
    extract_urls_from_page [⟨some "http://www.matthes-seitz-berlin.de/x?a\nb"⟩]
        "august-verlag"
      = [⟨"http://www.matthes-seitz-berlin.de/x?a\nb", "august-verlag"⟩] ∧
    '?' ∈ ("http://www.matthes-seitz-berlin.de/x?a\nb" : String).toList := by
  constructor
  · rfl
  · decide

/-- A listing with one linked item (relative href with tracking query),
one item without a link, and one item with an empty href. -/
def sampleItems : List Item := [⟨some "/buch.html?lid=1"⟩, ⟨none⟩, ⟨some ""⟩]

theorem extract_urls_absolute_c5_witness :
    ((extract_urls_from_page sampleItems "august-verlag").length
        = sampleItems.countP resolvableItem) ∧
    normalizeHref "/buch.html?lid=1"
      = (BASE_URL.toList
          ++ (sanitizeUrl ("/buch.html?lid=1" : String).toList).takeWhile
              notQmark).asString ∧
    normalizeHref "http://www.matthes-seitz-berlin.de/b.html"
      = (stripQ ("http://www.matthes-seitz-berlin.de/b.html" : String).toList).asString ∧
    normalizeHref "mailto:info@matthes-seitz-berlin.de"
      = (stripQ ("mailto:info@matthes-seitz-berlin.de" : String).toList).asString :=
  ⟨(extract_urls_absolute_c5 sampleItems "august-verlag").1,
    ((extract_urls_absolute_c5 [] "august-verlag").2.2.1 "/buch.html?lid=1"
      (by decide) (by decide) (by decide) (by decide) (by decide)).1,
    ((extract_urls_absolute_c5 [] "august-verlag").2.1
      "http://www.matthes-seitz-berlin.de/b.html" (by decide)).1,
    (extract_urls_absolute_c5 [] "august-verlag").2.2.2
      "mailto:info@matthes-seitz-berlin.de" "mailto".toList
      "info@matthes-seitz-berlin.de".toList (by decide) (by decide) (by decide)⟩

end MSCatalog
